import Mathlib

/-!
# hole_puncher: STUN discovery parsing and the reliable-delivery session

A shallow embedding of `main.go`:

* `getSTUNMapping` — the response handling of the STUN discovery (source lines 52–72);
* `chatSend`, `listenStep`, `retransmissionTick`, `keepAliveTick` — one iteration of the
  chat loop's send path and of each of the three background loops, as state passing
  over the package-level variables `pendingACKs`, `nextSeq` and `peerAddr`.

Bytes are `Fin 256`.  Go's `int` is modelled as `Int` with the 64-bit two's-complement
wrap made explicit (`wrapInt`) at the only arithmetic the program performs on it
(`nextSeq++`).
-/

namespace HolePuncher

/-! ## STUN discovery -/

/-- One octet of a datagram. -/
abbrev Byte := Fin 256

/-- The triple `(string, int, error)` returned by `getSTUNMapping`; `err = none` is Go's
`nil` error. -/
structure Mapping where
  ip : String
  port : Nat
  err : Option String
deriving DecidableEq

/-- Position of the first instance of `sep` in `s` (`none` when there is none): the search
performed by Go's `bytes.Index`. -/
def indexOfSub (sep : List Byte) : List Byte → Option Nat
  | [] => if sep.isEmpty then some 0 else none
  | b :: rest =>
    if sep.isPrefixOf (b :: rest) then some 0 else (indexOfSub sep rest).map (· + 1)

/-- Go's `bytes.Index(s, sep)`: index of the first instance of `sep` in `s`, or `-1`. -/
def bytesIndex (s sep : List Byte) : Int :=
  match indexOfSub sep s with
  | some i => (i : Int)
  | none => -1

/-- Go's slice expression `b[lo:hi]` on a slice whose capacity equals its length;
`none` is the run-time panic "slice bounds out of range". -/
def goSlice (b : List Byte) (lo hi : Nat) : Option (List Byte) :=
  if lo ≤ hi ∧ hi ≤ b.length then some ((b.drop lo).take (hi - lo)) else none

/-- Go's `binary.BigEndian.Uint16` on a two-byte slice. -/
def bigEndianUint16 (b : List Byte) : Nat :=
  (b.getD 0 0).val * 256 + (b.getD 1 0).val

/-- Go's `net.IP.String()` for a four-byte address: dotted decimal. -/
def ipString (ip : List Nat) : String :=
  toString (ip.getD 0 0) ++ "." ++ toString (ip.getD 1 0) ++ "." ++
    toString (ip.getD 2 0) ++ "." ++ toString (ip.getD 3 0)

/-- The receive buffer after `conn.ReadFromUDP(resp)` delivered the datagram `data`:
`resp := make([]byte, 1024)` is zero-filled, the datagram (cut at 1024 bytes) is copied to
its front. -/
def respBuffer (data : List Byte) : List Byte :=
  data.take 1024 ++ List.replicate (1024 - data.length) 0

/-- The byte count `n` returned by `conn.ReadFromUDP(resp)` for the datagram `data`. -/
def readCount (data : List Byte) : Nat := min data.length 1024

/-- The marker `[]byte{0x00, 0x20}` searched for by the parser. -/
def xorMappedMarker : List Byte := [0x00, 0x20]

/-- The part of `getSTUNMapping` after the read (source lines 54–72).  `read` is the
outcome of `conn.ReadFromUDP(resp)`: an error, or the datagram received.  The result is
`none` when the function panics on a slice bound, otherwise the returned triple. -/
def getSTUNMapping (read : Except String (List Byte)) : Option Mapping :=
  match read with
  | .error e => some ⟨"", 0, some e⟩
  | .ok data =>
    let resp := respBuffer data
    let n := readCount data
    let index := bytesIndex (resp.take n) xorMappedMarker
    if index = -1 then
      some ⟨"", 0, some "could not find XOR-MAPPED-ADDRESS"⟩
    else
      let i := index.toNat
      match goSlice resp (i + 6) (i + 8) with
      | none => none
      | some portBytes =>
        let rawPort := bigEndianUint16 portBytes
        let port := rawPort ^^^ 0x2112
        match goSlice resp (i + 8) (i + 12) with
        | none => none
        | some rawIP =>
          let ip : List Nat :=
            [(rawIP.getD 0 0).val ^^^ 0x21, (rawIP.getD 1 0).val ^^^ 0x12,
             (rawIP.getD 2 0).val ^^^ 0xA4, (rawIP.getD 3 0).val ^^^ 0x42]
          some ⟨ipString ip, port, none⟩


/-- The marker bytes `0x00 0x20` stand at offsets `i`, `i+1` of `s`. -/
def MarkerAt (s : List Byte) (i : Nat) : Prop :=
  s[i]? = some 0x00 ∧ s[i + 1]? = some 0x20

instance (s : List Byte) (i : Nat) : Decidable (MarkerAt s i) := by
  unfold MarkerAt; infer_instance

/-- Offset `i` is the first occurrence of the marker in `s`. -/
def FirstMarkerAt (s : List Byte) (i : Nat) : Prop :=
  MarkerAt s i ∧ ∀ j, j < i → ¬ MarkerAt s j

instance (s : List Byte) (i : Nat) : Decidable (FirstMarkerAt s i) := by
  unfold FirstMarkerAt; infer_instance

/-- What decoding at offset `i` yields when the bytes are taken from the datagram `data`
and every byte past its end reads as zero. -/
def decodeAt (data : List Byte) (i : Nat) : Mapping :=
  ⟨ipString [(data.getD (i + 8) 0).val ^^^ 0x21, (data.getD (i + 9) 0).val ^^^ 0x12,
             (data.getD (i + 10) 0).val ^^^ 0xA4, (data.getD (i + 11) 0).val ^^^ 0x42],
   ((data.getD (i + 6) 0).val * 256 + (data.getD (i + 7) 0).val) ^^^ 0x2112,
   none⟩


/-- An XOR-MAPPED-ADDRESS attribute as a STUN server writes it (this encoder is not part
of `main.go`; it follows the attribute layout named in the specification): type `0x0020`,
two length bytes, a reserved byte, a family byte, the port XORed with the most significant
16 bits `0x2112` of the magic constant `0x2112A442`, and the four IPv4 address bytes XORed
with the four bytes `21 12 A4 42` of the constant. -/
def xorMappedAddressAttr (len0 len1 reserved family : Byte) (port : Fin 65536)
    (a0 a1 a2 a3 : Byte) : List Byte :=
  [0x00, 0x20, len0, len1, reserved, family,
   Fin.ofNat ((port.val ^^^ 0x2112) / 256), Fin.ofNat ((port.val ^^^ 0x2112) % 256),
   Fin.ofNat (a0.val ^^^ 0x21), Fin.ofNat (a1.val ^^^ 0x12),
   Fin.ofNat (a2.val ^^^ 0xA4), Fin.ofNat (a3.val ^^^ 0x42)]

/-- A canned binding response: the 20-byte STUN header (success response, length 12,
magic constant, transaction identifier `01 … 0C`) followed by one XOR-MAPPED-ADDRESS
attribute for `192.0.2.1:62486`. -/
def cannedResponse : List Byte :=
  [0x01, 0x01, 0x00, 0x0C, 0x21, 0x12, 0xA4, 0x42,
   0x01, 0x02, 0x03, 0x04, 0x05, 0x06, 0x07, 0x08, 0x09, 0x0A, 0x0B, 0x0C,
   0x00, 0x20, 0x00, 0x08, 0x00, 0x01, 0xD5, 0x04, 0xE1, 0x12, 0xA6, 0x43]

/-- The same response for a request whose random transaction identifier happens to start
with the bytes `00 20`. -/
def cannedResponseMarkerInTid : List Byte :=
  [0x01, 0x01, 0x00, 0x0C, 0x21, 0x12, 0xA4, 0x42,
   0x00, 0x20, 0x03, 0x04, 0x05, 0x06, 0x07, 0x08, 0x09, 0x0A, 0x0B, 0x0C,
   0x00, 0x20, 0x00, 0x08, 0x00, 0x01, 0xD5, 0x04, 0xE1, 0x12, 0xA6, 0x43]

/-- A test datagram: `k` filler bytes `01`, then the marker `00 20`, then `tail`. -/
def markerAfterFiller (k : Nat) (tail : List Byte) : List Byte :=
  List.replicate k 0x01 ++ (0x00 :: 0x20 :: tail)

/-! ## The reliable-delivery session -/

/-- Go's `int` on a 64-bit platform: the value of an integer after two's-complement
wrap-around to the range `-2^63 … 2^63 - 1`. -/
def wrapInt (x : Int) : Int := (x + 2 ^ 63) % 2 ^ 64 - 2 ^ 63

/-- `type Packet struct { Type int; Seq int; Data string }`. -/
structure Packet where
  Typ : Int
  Seq : Int
  Data : String
deriving DecidableEq

/-- `TypeALV = iota`. -/
def TypeALV : Int := 0
/-- `TypeMSG`. -/
def TypeMSG : Int := 1
/-- `TypeACK`. -/
def TypeACK : Int := 2

/-- A non-nil `*net.UDPAddr`. -/
structure UDPAddr where
  IP : String
  Port : Int
deriving DecidableEq

/-- The package-level variables: `pendingACKs` (a `map[int]Packet`, kept as an association
list with at most one entry per key), `nextSeq`, and `peerAddr` (`none` is `nil`). -/
structure State where
  pendingACKs : List (Int × Packet)
  nextSeq : Int
  peerAddr : Option UDPAddr
deriving DecidableEq

/-- What the program does to the outside world: `conn.WriteToUDP(json.Marshal(p), addr)`
with a non-nil address, and `fmt.Printf` to the console. -/
inductive Effect where
  | write (p : Packet) (addr : UDPAddr)
  | print (text : String)
deriving DecidableEq

/-- Go's `delete(m, k)`. -/
def mapDelete (m : List (Int × Packet)) (k : Int) : List (Int × Packet) :=
  m.filter (fun e => e.1 != k)

/-- Go's `m[k] = v`: the entry for `k` is replaced or created. -/
def mapStore (m : List (Int × Packet)) (k : Int) (v : Packet) : List (Int × Packet) :=
  (k, v) :: mapDelete m k

/-- Go's `v, ok := m[k]`. -/
def mapLookup (m : List (Int × Packet)) (k : Int) : Option Packet :=
  m.lookup k

/-- `payload, _ := json.Marshal(p); conn.WriteToUDP(payload, addr)` where `addr` may be
`nil`: with a `nil` address `WriteToUDP` fails without transmitting, and the program
ignores the error. -/
def writeToUDP (p : Packet) (addr : Option UDPAddr) : List Effect :=
  match addr with
  | some a => [Effect.write p a]
  | none => []

/-- The state at the start of the chat loop and of the background loops: `pendingACKs`
empty, `nextSeq = 1`, `peerAddr` as resolved from the operator's input. -/
def initState (peer : Option UDPAddr) : State :=
  ⟨[], 1, peer⟩

/-- The send path of the chat loop (source lines 194–203) for a line `input` that is
neither blank nor `exit`. -/
def chatSend (st : State) (input : String) : State × List Effect :=
  let p : Packet := ⟨TypeMSG, st.nextSeq, input⟩
  ({ st with
      pendingACKs := mapStore st.pendingACKs st.nextSeq p
      nextSeq := wrapInt (st.nextSeq + 1) },
   writeToUDP p st.peerAddr)

/-- One iteration of `listenLoop` for a datagram that was read from `addr` and decoded
to the packet `p` (the `switch p.Type`). -/
def listenStep (st : State) (p : Packet) (addr : UDPAddr) : State × List Effect :=
  if p.Typ = TypeALV then
    (st, [])
  else if p.Typ = TypeACK then
    ({ st with pendingACKs := mapDelete st.pendingACKs p.Seq }, [])
  else if p.Typ = TypeMSG then
    (st, [Effect.write ⟨TypeACK, p.Seq, ""⟩ addr,
          Effect.print ("\r\x1b[K[Peer]: " ++ p.Data ++ "\n> ")])
  else
    (st, [])

/-- One tick of `retransmissionLoop`.  Go ranges over the map in an unspecified order;
here the entries are visited in list order. -/
def retransmissionTick (st : State) : State × List Effect :=
  match st.peerAddr with
  | none => (st, [])
  | some a => (st, st.pendingACKs.map (fun e => Effect.write e.2 a))

/-- One tick of `keepAliveLoop`. -/
def keepAliveTick (st : State) : State × List Effect :=
  match st.peerAddr with
  | some a => (st, [Effect.write ⟨TypeALV, 0, ""⟩ a])
  | none => (st, [])

/-- The operations that act on the session once the loops run.  Each one is atomic with
respect to the shared variables: the table and the counter are only touched under
`pendingMutex`, and the writes to the socket do not read them. -/
inductive Event where
  | submit (input : String)
  | recv (p : Packet) (addr : UDPAddr)
  | retransmit
  | keepAlive
deriving DecidableEq

/-- The effect of one operation. -/
def step (st : State) : Event → State × List Effect
  | .submit input => chatSend st input
  | .recv p addr => listenStep st p addr
  | .retransmit => retransmissionTick st
  | .keepAlive => keepAliveTick st

/-- The effect of a sequence of operations: final state and everything emitted, in
order. -/
def run (st : State) : List Event → State × List Effect
  | [] => (st, [])
  | e :: es =>
    let r := step st e
    let r' := run r.1 es
    (r'.1, r.2 ++ r'.2)

/-- The operation is the submission of a message. -/
def Event.isSubmit : Event → Bool
  | .submit _ => true
  | _ => false

/-- Number of messages submitted in a sequence of operations. -/
def numSubmits (tr : List Event) : Nat :=
  tr.countP Event.isSubmit

/-- The effect is a transmission of a packet with sequence number `s`. -/
def Effect.isWriteOfSeq (s : Int) : Effect → Bool
  | .write p _ => p.Seq == s
  | .print _ => false

/-- Well-formedness of the pending table as a Go map of sent messages: every entry is a
Message packet stored under its own sequence number, and no key occurs twice. -/
def TableOK (m : List (Int × Packet)) : Prop :=
  (∀ e ∈ m, e.2.Seq = e.1 ∧ e.2.Typ = TypeMSG) ∧ (m.map Prod.fst).Nodup

/-- The sequence number that a message submitted after the operations `pre` of a session
is assigned: the value of `nextSeq` at that moment. -/
def assignedSeq (peer : Option UDPAddr) (pre : List Event) : Int :=
  (run (initState peer) pre).1.nextSeq

/-- A session history in which a message `input` is submitted after the operations
`pre1`, and after further operations `pre2` an Acknowledgment carrying the sequence
number of that message is received; `post` is what happens afterwards. -/
def ackedHistory (peer : Option UDPAddr) (pre1 : List Event) (input : String)
    (pre2 : List Event) (d : String) (addr : UDPAddr) (post : List Event) : List Event :=
  pre1 ++ Event.submit input ::
    (pre2 ++ Event.recv ⟨TypeACK, assignedSeq peer pre1, d⟩ addr :: post)
/-! ### Lemmas on the search -/

theorem markerAt_nil (j : Nat) : ¬ MarkerAt [] j := by
  simp [MarkerAt]

theorem markerAt_cons_succ (b : Byte) (rest : List Byte) (j : Nat) :
    MarkerAt (b :: rest) (j + 1) ↔ MarkerAt rest j := by
  simp [MarkerAt]

theorem markerAt_zero_iff (b : Byte) (rest : List Byte) :
    MarkerAt (b :: rest) 0 ↔ xorMappedMarker.isPrefixOf (b :: rest) = true := by
  cases rest with
  | nil => simp [MarkerAt, xorMappedMarker, List.isPrefixOf]
  | cons c r =>
    simp [MarkerAt, xorMappedMarker, List.isPrefixOf]
    constructor
    · rintro ⟨h1, h2⟩; exact ⟨h1.symm, h2.symm⟩
    · rintro ⟨h1, h2⟩; exact ⟨h1.symm, h2.symm⟩

theorem indexOfSub_eq_none_iff (s : List Byte) :
    indexOfSub xorMappedMarker s = none ↔ ∀ j, ¬ MarkerAt s j := by
  induction s with
  | nil =>
    simp [indexOfSub, xorMappedMarker, markerAt_nil]
  | cons b rest ih =>
    unfold indexOfSub
    by_cases hp : xorMappedMarker.isPrefixOf (b :: rest) = true
    · simp only [hp, if_true]
      constructor
      · intro h; cases h
      · intro h; exact absurd ((markerAt_zero_iff b rest).2 hp) (h 0)
    · simp only [hp, Bool.false_eq_true, if_false, Option.map_eq_none', ih]
      constructor
      · intro h j
        cases j with
        | zero => exact fun hm => hp ((markerAt_zero_iff b rest).1 hm)
        | succ k => rw [markerAt_cons_succ]; exact h k
      · intro h j
        have := h (j + 1)
        rwa [markerAt_cons_succ] at this

theorem indexOfSub_eq_some_iff (s : List Byte) (i : Nat) :
    indexOfSub xorMappedMarker s = some i ↔ FirstMarkerAt s i := by
  induction s generalizing i with
  | nil =>
    simp [indexOfSub, xorMappedMarker, FirstMarkerAt, markerAt_nil]
  | cons b rest ih =>
    unfold indexOfSub
    by_cases hp : xorMappedMarker.isPrefixOf (b :: rest) = true
    · simp only [hp, if_true, Option.some.injEq]
      constructor
      · intro h; subst h
        exact ⟨(markerAt_zero_iff b rest).2 hp, fun j hj => absurd hj (Nat.not_lt_zero j)⟩
      · rintro ⟨_, hfirst⟩
        cases i with
        | zero => rfl
        | succ k => exact absurd ((markerAt_zero_iff b rest).2 hp) (hfirst 0 (Nat.succ_pos k))
    · simp only [hp, Bool.false_eq_true, if_false, Option.map_eq_some']
      constructor
      · rintro ⟨k, hk, rfl⟩
        obtain ⟨hm, hfirst⟩ := (ih k).1 hk
        refine ⟨(markerAt_cons_succ b rest k).2 hm, ?_⟩
        intro j hj
        cases j with
        | zero => exact fun hm0 => hp ((markerAt_zero_iff b rest).1 hm0)
        | succ l =>
          rw [markerAt_cons_succ]
          exact hfirst l (Nat.lt_of_succ_lt_succ hj)
      · rintro ⟨hm, hfirst⟩
        cases i with
        | zero => exact absurd ((markerAt_zero_iff b rest).1 hm) hp
        | succ k =>
          refine ⟨k, (ih k).2 ⟨(markerAt_cons_succ b rest k).1 hm, ?_⟩, rfl⟩
          intro j hj
          have := hfirst (j + 1) (Nat.succ_lt_succ hj)
          rwa [markerAt_cons_succ] at this


/-! ### Lemmas on the receive buffer -/

theorem respBuffer_length (data : List Byte) : (respBuffer data).length = 1024 := by
  simp only [respBuffer, List.length_append, List.length_take, List.length_replicate]
  omega

theorem respBuffer_take (data : List Byte) :
    (respBuffer data).take (readCount data) = data.take 1024 := by
  have h : readCount data = (data.take 1024).length := by
    simp [readCount, List.length_take, Nat.min_comm]
  rw [respBuffer, h, List.take_left']
  rfl

theorem respBuffer_getD (data : List Byte) (j : Nat) (hj : j < 1024) :
    (respBuffer data).getD j 0 = data.getD j 0 := by
  unfold respBuffer
  by_cases h : j < data.length
  · have h1 : j < (data.take 1024).length := by
      simp [List.length_take]; omega
    rw [List.getD_append _ _ _ _ h1]
    simp [List.getD_eq_getElem?_getD, List.getElem?_take, hj]
  · have h1 : (data.take 1024).length ≤ j := by
      simp [List.length_take]; omega
    rw [List.getD_append_right _ _ _ _ h1]
    rw [List.getD_eq_default data 0 (by omega)]
    simp only [List.getD_eq_getElem?_getD, List.getElem?_replicate]
    split <;> rfl

theorem goSlice_eq_some (b : List Byte) (lo hi : Nat) (h1 : lo ≤ hi) (h2 : hi ≤ b.length) :
    goSlice b lo hi = some ((b.drop lo).take (hi - lo)) := by
  simp [goSlice, h1, h2]

theorem goSlice_eq_none (b : List Byte) (lo hi : Nat) (h : b.length < hi) :
    goSlice b lo hi = none := by
  simp [goSlice]; omega

theorem getD_take_drop (b : List Byte) (lo len k : Nat) (hk : k < len) :
    ((b.drop lo).take len).getD k 0 = b.getD (lo + k) 0 := by
  simp [List.getD_eq_getElem?_getD, List.getElem?_take, hk, List.getElem?_drop]

/-! ### The three outcomes of the parser -/

theorem getSTUNMapping_absent (data : List Byte)
    (h : indexOfSub xorMappedMarker (data.take 1024) = none) :
    getSTUNMapping (.ok data) = some ⟨"", 0, some "could not find XOR-MAPPED-ADDRESS"⟩ := by
  simp [getSTUNMapping, respBuffer_take, bytesIndex, h]

theorem getSTUNMapping_found (data : List Byte) (i : Nat)
    (h : indexOfSub xorMappedMarker (data.take 1024) = some i) (hfit : i + 12 ≤ 1024) :
    getSTUNMapping (.ok data) = some (decodeAt data i) := by
  have hne : ((i : Int) = -1) = False := by
    apply eq_false; omega
  have hlen := respBuffer_length data
  simp only [getSTUNMapping, respBuffer_take, bytesIndex, h, hne, if_false, Int.toNat_ofNat]
  rw [goSlice_eq_some _ _ _ (by omega) (by omega), goSlice_eq_some _ _ _ (by omega) (by omega)]
  have e1 : i + 8 - (i + 6) = 2 := by omega
  have e2 : i + 12 - (i + 8) = 4 := by omega
  simp only [e1, e2, bigEndianUint16, decodeAt]
  rw [getD_take_drop _ _ _ 0 (by omega), getD_take_drop _ _ _ 1 (by omega),
    getD_take_drop _ _ _ 0 (by omega), getD_take_drop _ _ _ 1 (by omega),
    getD_take_drop _ _ _ 2 (by omega), getD_take_drop _ _ _ 3 (by omega)]
  rw [respBuffer_getD _ _ (by omega), respBuffer_getD _ _ (by omega),
    respBuffer_getD _ _ (by omega), respBuffer_getD _ _ (by omega),
    respBuffer_getD _ _ (by omega), respBuffer_getD _ _ (by omega)]

theorem getSTUNMapping_panic (data : List Byte) (i : Nat)
    (h : indexOfSub xorMappedMarker (data.take 1024) = some i) (hfit : 1024 < i + 12) :
    getSTUNMapping (.ok data) = none := by
  have hne : ((i : Int) = -1) = False := by
    apply eq_false; omega
  have hlen := respBuffer_length data
  simp only [getSTUNMapping, respBuffer_take, bytesIndex, h, hne, if_false, Int.toNat_ofNat]
  rw [goSlice_eq_none _ (i + 8) (i + 12) (by omega)]
  cases goSlice (respBuffer data) (i + 6) (i + 8) <;> rfl

/-! ### XOR decoding undoes XOR encoding -/

theorem xor_byte_roundtrip (a : Byte) (m : Nat) (hm : m < 256) :
    ((Fin.ofNat (a.val ^^^ m) : Byte).val) ^^^ m = a.val := by
  have hlt : a.val ^^^ m < 256 := Nat.xor_lt_two_pow (n := 8) a.isLt hm
  show (a.val ^^^ m) % 256 ^^^ m = a.val
  rw [Nat.mod_eq_of_lt hlt, Nat.xor_cancel_right]

theorem xor_port_roundtrip (port : Fin 65536) :
    ((Fin.ofNat ((port.val ^^^ 0x2112) / 256) : Byte).val * 256 +
      (Fin.ofNat ((port.val ^^^ 0x2112) % 256) : Byte).val) ^^^ 0x2112 = port.val := by
  have hlt : port.val ^^^ 0x2112 < 65536 :=
    Nat.xor_lt_two_pow (n := 16) port.isLt (by norm_num)
  show (((port.val ^^^ 0x2112) / 256) % 256 * 256 + ((port.val ^^^ 0x2112) % 256) % 256)
      ^^^ 0x2112 = port.val
  have e : ((port.val ^^^ 0x2112) / 256) % 256 * 256 + ((port.val ^^^ 0x2112) % 256) % 256
      = port.val ^^^ 0x2112 := by omega
  rw [e, Nat.xor_cancel_right]

/-! ### Decoding an attribute found by the scan -/

theorem getElem?_append_offset (pre rest : List Byte) (k : Nat) :
    (pre ++ rest)[pre.length + k]? = rest[k]? := by
  induction pre with
  | nil => simp
  | cons b pre ih =>
    rw [List.cons_append, List.length_cons, Nat.add_right_comm, List.getElem?_cons_succ]
    exact ih

theorem markerAt_append_offset (pre rest : List Byte) (k : Nat) :
    MarkerAt (pre ++ rest) (pre.length + k) ↔ MarkerAt rest k := by
  unfold MarkerAt
  rw [Nat.add_assoc, getElem?_append_offset, getElem?_append_offset]

theorem markerAt_attr (pre post : List Byte) (len0 len1 reserved family : Byte)
    (port : Fin 65536) (a0 a1 a2 a3 : Byte) :
    MarkerAt (pre ++ xorMappedAddressAttr len0 len1 reserved family port a0 a1 a2 a3 ++ post)
      pre.length := by
  have h := (markerAt_append_offset pre
    (xorMappedAddressAttr len0 len1 reserved family port a0 a1 a2 a3 ++ post) 0).2
  rw [List.append_assoc]
  apply h
  exact ⟨rfl, rfl⟩

theorem decodeAt_attr (pre post : List Byte) (len0 len1 reserved family : Byte)
    (port : Fin 65536) (a0 a1 a2 a3 : Byte) :
    decodeAt (pre ++ xorMappedAddressAttr len0 len1 reserved family port a0 a1 a2 a3 ++ post)
      pre.length = ⟨ipString [a0.val, a1.val, a2.val, a3.val], port.val, none⟩ := by
  have hp := xor_port_roundtrip port
  have h0 := xor_byte_roundtrip a0 0x21 (by norm_num)
  have h1 := xor_byte_roundtrip a1 0x12 (by norm_num)
  have h2 := xor_byte_roundtrip a2 0xA4 (by norm_num)
  have h3 := xor_byte_roundtrip a3 0x42 (by norm_num)
  simp only [decodeAt, List.append_assoc, List.getD_eq_getElem?_getD, getElem?_append_offset]
  simp only [xorMappedAddressAttr, List.cons_append, List.getElem?_cons_succ,
    List.getElem?_cons_zero, Option.getD_some]
  rw [hp, h0, h1, h2, h3]

/-! ### The search result as an offset -/

theorem bytesIndex_eq_natCast_iff (s : List Byte) (i : Nat) :
    bytesIndex s xorMappedMarker = (i : Int) ↔ indexOfSub xorMappedMarker s = some i := by
  unfold bytesIndex
  cases h : indexOfSub xorMappedMarker s with
  | none =>
    simp only [reduceCtorEq, iff_false]
  | some k =>
    simp only [Option.some.injEq]
    omega

theorem take_readCount (data : List Byte) : data.take (readCount data) = data.take 1024 := by
  unfold readCount
  by_cases h : data.length ≤ 1024
  · rw [Nat.min_eq_left h, List.take_of_length_le (Nat.le_refl _), List.take_of_length_le h]
  · rw [Nat.min_eq_right (by omega)]

theorem markerAfterFiller_length (k : Nat) (tail : List Byte) :
    (markerAfterFiller k tail).length = k + 2 + tail.length := by
  simp [markerAfterFiller]; omega

theorem firstMarkerAt_markerAfterFiller (k : Nat) (tail : List Byte) :
    FirstMarkerAt (markerAfterFiller k tail) k := by
  constructor
  · have h := (markerAt_append_offset (List.replicate k 0x01) (0x00 :: 0x20 :: tail) 0).2
      (by simp [MarkerAt])
    simpa [markerAfterFiller] using h
  · intro j hj hm
    have h0 := hm.1
    rw [markerAfterFiller, List.getElem?_append_left (by simpa using hj),
      List.getElem?_replicate, if_pos hj] at h0
    exact absurd h0 (by decide)

theorem indexOfSub_markerAfterFiller (k : Nat) (tail : List Byte)
    (hlen : k + 2 + tail.length ≤ 1024) :
    indexOfSub xorMappedMarker ((markerAfterFiller k tail).take 1024) = some k := by
  rw [List.take_of_length_le (by rw [markerAfterFiller_length]; exact hlen)]
  exact (indexOfSub_eq_some_iff _ k).2 (firstMarkerAt_markerAfterFiller k tail)

/-! ### The pending table -/

theorem mapLookup_nil (k : Int) : mapLookup [] k = none := rfl

theorem mapLookup_cons (k k' : Int) (v : Packet) (m : List (Int × Packet)) :
    mapLookup ((k', v) :: m) k = if k = k' then some v else mapLookup m k := by
  unfold mapLookup
  rw [List.lookup_cons]
  by_cases h : k = k'
  · subst h; simp
  · have hb : (k == k') = false := by simpa using h
    simp [hb, h]

theorem mapDelete_cons (k k' : Int) (v : Packet) (m : List (Int × Packet)) :
    mapDelete ((k', v) :: m) k = if k' = k then mapDelete m k else (k', v) :: mapDelete m k := by
  unfold mapDelete
  by_cases h : k' = k
  · subst h; simp
  · simp [List.filter_cons, h]

theorem mem_mapDelete (m : List (Int × Packet)) (k : Int) (e : Int × Packet) :
    e ∈ mapDelete m k ↔ e ∈ m ∧ e.1 ≠ k := by
  simp [mapDelete, List.mem_filter]

theorem mapLookup_eq_none_iff (m : List (Int × Packet)) (k : Int) :
    mapLookup m k = none ↔ ∀ e ∈ m, e.1 ≠ k := by
  induction m with
  | nil => simp [mapLookup_nil]
  | cons e m ih =>
    obtain ⟨k', v⟩ := e
    rw [mapLookup_cons]
    by_cases h : k = k'
    · subst h; simp
    · simp only [h, if_false, ih, List.mem_cons, forall_eq_or_imp]
      constructor
      · intro hm; exact ⟨fun hk => h hk.symm, hm⟩
      · intro hm; exact hm.2

theorem mapLookup_mapDelete_self (m : List (Int × Packet)) (k : Int) :
    mapLookup (mapDelete m k) k = none := by
  rw [mapLookup_eq_none_iff]
  intro e he
  exact ((mem_mapDelete m k e).1 he).2

theorem mapLookup_mapDelete_ne (m : List (Int × Packet)) (k k' : Int) (h : k ≠ k') :
    mapLookup (mapDelete m k) k' = mapLookup m k' := by
  induction m with
  | nil => rfl
  | cons e m ih =>
    obtain ⟨k₀, v⟩ := e
    rw [mapDelete_cons]
    by_cases h0 : k₀ = k
    · subst h0
      rw [if_pos rfl, ih, mapLookup_cons, if_neg (fun hk => h hk.symm)]
    · rw [if_neg h0, mapLookup_cons, mapLookup_cons, ih]

theorem mapDelete_idem (m : List (Int × Packet)) (k : Int) :
    mapDelete (mapDelete m k) k = mapDelete m k := by
  simp [mapDelete, List.filter_filter]

theorem mapDelete_of_absent (m : List (Int × Packet)) (k : Int) (h : mapLookup m k = none) :
    mapDelete m k = m := by
  rw [mapLookup_eq_none_iff] at h
  unfold mapDelete
  rw [List.filter_eq_self]
  intro e he
  simpa using h e he

theorem mapLookup_mapStore_self (m : List (Int × Packet)) (k : Int) (v : Packet) :
    mapLookup (mapStore m k v) k = some v := by
  rw [mapStore, mapLookup_cons, if_pos rfl]

theorem mapLookup_mapStore_ne (m : List (Int × Packet)) (k k' : Int) (v : Packet)
    (h : k ≠ k') : mapLookup (mapStore m k v) k' = mapLookup m k' := by
  rw [mapStore, mapLookup_cons, if_neg (fun hk => h hk.symm), mapLookup_mapDelete_ne m k k' h]

theorem mem_of_mapLookup (m : List (Int × Packet)) (k : Int) (v : Packet)
    (h : mapLookup m k = some v) : (k, v) ∈ m := by
  induction m with
  | nil => cases h
  | cons e m ih =>
    obtain ⟨k', v'⟩ := e
    rw [mapLookup_cons] at h
    by_cases hk : k = k'
    · subst hk
      rw [if_pos rfl] at h
      cases h
      exact List.mem_cons_self _ _
    · rw [if_neg hk] at h
      exact List.mem_cons_of_mem _ (ih h)

/-! ### The receive handler -/

theorem listenStep_ack (st : State) (s : Int) (d : String) (addr : UDPAddr) :
    listenStep st ⟨TypeACK, s, d⟩ addr
      = ({ st with pendingACKs := mapDelete st.pendingACKs s }, []) := by
  simp [listenStep, TypeACK, TypeALV]

theorem listenStep_msg (st : State) (s : Int) (d : String) (addr : UDPAddr) :
    listenStep st ⟨TypeMSG, s, d⟩ addr
      = (st, [Effect.write ⟨TypeACK, s, ""⟩ addr,
              Effect.print ("\r\x1b[K[Peer]: " ++ d ++ "\n> ")]) := by
  simp [listenStep, TypeACK, TypeALV, TypeMSG]

/-! ### Wrap-around of the counter -/

theorem wrapInt_of_inRange (x : Int) (hlo : -2 ^ 63 ≤ x) (hhi : x < 2 ^ 63) :
    wrapInt x = x := by
  unfold wrapInt
  norm_num at hlo hhi ⊢
  omega

theorem wrapInt_wrapInt_add_one (x : Int) : wrapInt (wrapInt x + 1) = wrapInt (x + 1) := by
  unfold wrapInt
  norm_num
  omega

/-! ### Sequences of operations -/

theorem run_append (st : State) (xs ys : List Event) :
    run st (xs ++ ys)
      = ((run (run st xs).1 ys).1, (run st xs).2 ++ (run (run st xs).1 ys).2) := by
  induction xs generalizing st with
  | nil => simp [run]
  | cons e es ih => simp [run, ih, List.append_assoc]

theorem run_singleton (st : State) (e : Event) : run st [e] = step st e := by
  simp [run]

theorem run_snoc (st : State) (tr : List Event) (e : Event) :
    run st (tr ++ [e])
      = ((step (run st tr).1 e).1, (run st tr).2 ++ (step (run st tr).1 e).2) := by
  rw [run_append, run_singleton]

theorem numSubmits_append (xs ys : List Event) :
    numSubmits (xs ++ ys) = numSubmits xs + numSubmits ys := by
  simp [numSubmits, List.countP_append]

theorem numSubmits_cons_submit (input : String) (es : List Event) :
    numSubmits (Event.submit input :: es) = numSubmits es + 1 := by
  simp [numSubmits, List.countP_cons, Event.isSubmit]

theorem numSubmits_cons_recv (p : Packet) (addr : UDPAddr) (es : List Event) :
    numSubmits (Event.recv p addr :: es) = numSubmits es := by
  simp [numSubmits, List.countP_cons, Event.isSubmit]

theorem numSubmits_cons_retransmit (es : List Event) :
    numSubmits (Event.retransmit :: es) = numSubmits es := by
  simp [numSubmits, List.countP_cons, Event.isSubmit]

theorem numSubmits_cons_keepAlive (es : List Event) :
    numSubmits (Event.keepAlive :: es) = numSubmits es := by
  simp [numSubmits, List.countP_cons, Event.isSubmit]

theorem numSubmits_replicate_submit (n : Nat) (input : String) :
    numSubmits (List.replicate n (Event.submit input)) = n := by
  induction n with
  | zero => rfl
  | succ n ih => rw [List.replicate_succ, numSubmits_cons_submit, ih]

theorem step_peerAddr (st : State) (e : Event) : (step st e).1.peerAddr = st.peerAddr := by
  cases e with
  | submit input => rfl
  | recv p addr =>
    simp only [step, listenStep]
    split
    · rfl
    · split
      · rfl
      · split <;> rfl
  | retransmit =>
    simp only [step, retransmissionTick]
    split <;> rfl
  | keepAlive =>
    simp only [step, keepAliveTick]
    split <;> rfl

theorem run_peerAddr (st : State) (tr : List Event) : (run st tr).1.peerAddr = st.peerAddr := by
  induction tr generalizing st with
  | nil => rfl
  | cons e es ih => simp only [run]; rw [ih, step_peerAddr]

theorem step_nextSeq (st : State) (e : Event) :
    (step st e).1.nextSeq
      = match e with
        | .submit _ => wrapInt (st.nextSeq + 1)
        | _ => st.nextSeq := by
  cases e with
  | submit input => rfl
  | recv p addr =>
    simp only [step, listenStep]
    split
    · rfl
    · split
      · rfl
      · split <;> rfl
  | retransmit =>
    simp only [step, retransmissionTick]
    split <;> rfl
  | keepAlive =>
    simp only [step, keepAliveTick]
    split <;> rfl

theorem run_nextSeq_wrap (st : State) (tr : List Event) (y : Int)
    (h : st.nextSeq = wrapInt y) :
    (run st tr).1.nextSeq = wrapInt (y + numSubmits tr) := by
  induction tr generalizing st y with
  | nil => simpa [run, numSubmits] using h
  | cons e es ih =>
    simp only [run]
    cases e with
    | submit input =>
      have h1 : (step st (Event.submit input)).1.nextSeq = wrapInt (y + 1) := by
        rw [step_nextSeq, h, wrapInt_wrapInt_add_one]
      rw [ih _ (y + 1) h1, numSubmits_cons_submit]
      congr 1
      push_cast
      omega
    | recv p addr =>
      have h1 : (step st (Event.recv p addr)).1.nextSeq = wrapInt y := by
        rw [step_nextSeq, h]
      rw [ih _ y h1, numSubmits_cons_recv]
    | retransmit =>
      have h1 : (step st Event.retransmit).1.nextSeq = wrapInt y := by
        rw [step_nextSeq, h]
      rw [ih _ y h1, numSubmits_cons_retransmit]
    | keepAlive =>
      have h1 : (step st Event.keepAlive).1.nextSeq = wrapInt y := by
        rw [step_nextSeq, h]
      rw [ih _ y h1, numSubmits_cons_keepAlive]

theorem assignedSeq_eq_wrap (peer : Option UDPAddr) (tr : List Event) :
    assignedSeq peer tr = wrapInt (1 + numSubmits tr) :=
  run_nextSeq_wrap (initState peer) tr 1 (by
    rw [wrapInt_of_inRange 1 (by norm_num) (by norm_num)]; rfl)

theorem assignedSeq_eq (peer : Option UDPAddr) (tr : List Event)
    (h : numSubmits tr < 2 ^ 63 - 1) : assignedSeq peer tr = 1 + numSubmits tr := by
  rw [assignedSeq_eq_wrap]
  apply wrapInt_of_inRange
  · have : (0 : Int) ≤ (numSubmits tr : Int) := Int.ofNat_nonneg _
    norm_num
    omega
  · have h' : (numSubmits tr : Int) < 2 ^ 63 - 1 := by
      have := Int.ofNat_lt.2 h
      push_cast at this
      simpa using this
    omega

/-! ### How one operation changes the pending table -/

theorem step_pendingACKs (st : State) (e : Event) :
    (step st e).1.pendingACKs
      = match e with
        | .submit input => mapStore st.pendingACKs st.nextSeq ⟨TypeMSG, st.nextSeq, input⟩
        | .recv p _ => if p.Typ = TypeACK then mapDelete st.pendingACKs p.Seq
            else st.pendingACKs
        | _ => st.pendingACKs := by
  cases e with
  | submit input => rfl
  | recv p addr =>
    simp only [step, listenStep]
    by_cases h0 : p.Typ = TypeALV
    · have h2 : ¬ p.Typ = TypeACK := by rw [h0]; decide
      rw [if_pos h0, if_neg h2]
    · by_cases h2 : p.Typ = TypeACK
      · rw [if_neg h0, if_pos h2, if_pos h2]
      · rw [if_neg h0, if_neg h2, if_neg h2]
        split <;> rfl
  | retransmit =>
    simp only [step, retransmissionTick]
    split <;> rfl
  | keepAlive =>
    simp only [step, keepAliveTick]
    split <;> rfl

theorem step_pending_mem (st : State) (ev : Event) (e : Int × Packet)
    (h : e ∈ (step st ev).1.pendingACKs) :
    e ∈ st.pendingACKs ∨
      ∃ input, ev = Event.submit input ∧ e = (st.nextSeq, ⟨TypeMSG, st.nextSeq, input⟩) := by
  rw [step_pendingACKs] at h
  cases ev with
  | submit input =>
    simp only [mapStore, List.mem_cons] at h
    rcases h with h | h
    · exact Or.inr ⟨input, rfl, h⟩
    · exact Or.inl ((mem_mapDelete _ _ _).1 h).1
  | recv p addr =>
    simp only at h
    split at h
    · exact Or.inl ((mem_mapDelete _ _ _).1 h).1
    · exact Or.inl h
  | retransmit => exact Or.inl h
  | keepAlive => exact Or.inl h

theorem tableOK_nil : TableOK [] := by
  simp [TableOK]

theorem tableOK_mapDelete (m : List (Int × Packet)) (k : Int) (h : TableOK m) :
    TableOK (mapDelete m k) := by
  refine ⟨fun e he => h.1 e ((mem_mapDelete m k e).1 he).1, ?_⟩
  exact h.2.sublist ((List.filter_sublist m).map Prod.fst)

theorem tableOK_mapStore (m : List (Int × Packet)) (k : Int) (input : String)
    (h : TableOK m) : TableOK (mapStore m k ⟨TypeMSG, k, input⟩) := by
  have hd := tableOK_mapDelete m k h
  refine ⟨?_, ?_⟩
  · intro e he
    simp only [mapStore, List.mem_cons] at he
    rcases he with he | he
    · subst he; exact ⟨rfl, rfl⟩
    · exact hd.1 e he
  · simp only [mapStore, List.map_cons, List.nodup_cons]
    refine ⟨?_, hd.2⟩
    intro hk
    obtain ⟨e, he, hek⟩ := List.mem_map.1 hk
    exact ((mem_mapDelete m k e).1 he).2 hek

theorem step_tableOK (st : State) (ev : Event) (h : TableOK st.pendingACKs) :
    TableOK (step st ev).1.pendingACKs := by
  rw [step_pendingACKs]
  cases ev with
  | submit input => exact tableOK_mapStore _ _ _ h
  | recv p addr =>
    simp only
    split
    · exact tableOK_mapDelete _ _ h
    · exact h
  | retransmit => exact h
  | keepAlive => exact h

theorem run_tableOK (st : State) (tr : List Event) (h : TableOK st.pendingACKs) :
    TableOK (run st tr).1.pendingACKs := by
  induction tr generalizing st with
  | nil => exact h
  | cons e es ih => exact ih _ (step_tableOK st e h)

theorem mapLookup_of_mem (m : List (Int × Packet)) (h : TableOK m) (e : Int × Packet)
    (he : e ∈ m) : mapLookup m e.1 = some e.2 := by
  induction m with
  | nil => cases he
  | cons e' m ih =>
    obtain ⟨k', v'⟩ := e'
    have hnd : k' ∉ m.map Prod.fst ∧ (m.map Prod.fst).Nodup := by
      simpa [List.nodup_cons] using h.2
    rw [mapLookup_cons]
    rcases List.mem_cons.1 he with heq | hmem
    · subst heq; simp
    · have hne : e.1 ≠ k' := by
        intro hk
        exact hnd.1 (hk ▸ List.mem_map_of_mem Prod.fst hmem)
      rw [if_neg hne]
      exact ih ⟨fun x hx => h.1 x (List.mem_cons_of_mem _ hx), hnd.2⟩ hmem

/-! ### Invariants of a session below the wrap-around of the counter -/

theorem numSubmits_snoc_le (tr : List Event) (ev : Event) :
    numSubmits tr ≤ numSubmits (tr ++ [ev]) := by
  rw [numSubmits_append]; omega

theorem run_snoc_pendingACKs (peer : Option UDPAddr) (tr : List Event) (ev : Event) :
    (run (initState peer) (tr ++ [ev])).1.pendingACKs
      = (step (run (initState peer) tr).1 ev).1.pendingACKs := by
  rw [run_snoc]

theorem keys_lt_assignedSeq (peer : Option UDPAddr) (tr : List Event)
    (h : numSubmits tr < 2 ^ 63 - 1) :
    ∀ e ∈ (run (initState peer) tr).1.pendingACKs, 1 ≤ e.1 ∧ e.1 < assignedSeq peer tr := by
  induction tr using List.reverseRecOn with
  | nil => intro e he; cases he
  | append_singleton tr ev ih =>
    have hle := numSubmits_snoc_le tr ev
    have htr : numSubmits tr < 2 ^ 63 - 1 := by omega
    have hold := assignedSeq_eq peer tr htr
    have hnew := assignedSeq_eq peer (tr ++ [ev]) h
    intro e he
    rw [run_snoc_pendingACKs] at he
    rcases step_pending_mem _ ev e he with hmem | ⟨input, hev, heq⟩
    · have := ih htr e hmem
      refine ⟨this.1, ?_⟩
      have hc : (numSubmits tr : Int) ≤ (numSubmits (tr ++ [ev]) : Int) := Int.ofNat_le.2 hle
      omega
    · subst hev
      have hk : e.1 = assignedSeq peer tr := by rw [heq]; rfl
      have hn : numSubmits (tr ++ [Event.submit input]) = numSubmits tr + 1 := by
        rw [numSubmits_append, numSubmits_cons_submit]; rfl
      rw [hk, hnew, hold, hn]
      push_cast
      have : (0 : Int) ≤ (numSubmits tr : Int) := Int.ofNat_nonneg _
      omega

theorem mapLookup_mapDelete_of_none (m : List (Int × Packet)) (k s : Int)
    (h : mapLookup m s = none) : mapLookup (mapDelete m k) s = none := by
  by_cases hk : k = s
  · subst hk; exact mapLookup_mapDelete_self m k
  · rw [mapLookup_mapDelete_ne m k s hk]; exact h

theorem absent_stays_absent (peer : Option UDPAddr) (pre post : List Event) (s : Int)
    (hbound : numSubmits (pre ++ post) < 2 ^ 63 - 1)
    (hs : s < assignedSeq peer pre)
    (habs : mapLookup (run (initState peer) pre).1.pendingACKs s = none) :
    mapLookup (run (initState peer) (pre ++ post)).1.pendingACKs s = none := by
  induction post using List.reverseRecOn with
  | nil => simpa using habs
  | append_singleton post ev ih =>
    rw [← List.append_assoc] at hbound ⊢
    have hle := numSubmits_snoc_le (pre ++ post) ev
    have hb : numSubmits (pre ++ post) < 2 ^ 63 - 1 := by omega
    have hprev := ih hb
    rw [run_snoc_pendingACKs, step_pendingACKs]
    cases ev with
    | submit input =>
      have hpre : numSubmits pre < 2 ^ 63 - 1 := by
        rw [numSubmits_append] at hb; omega
      have h1 := assignedSeq_eq peer pre hpre
      have h2 := assignedSeq_eq peer (pre ++ post) hb
      have hne : (run (initState peer) (pre ++ post)).1.nextSeq ≠ s := by
        change assignedSeq peer (pre ++ post) ≠ s
        rw [h2, numSubmits_append]
        rw [h1] at hs
        push_cast
        have : (0 : Int) ≤ (numSubmits post : Int) := Int.ofNat_nonneg _
        omega
      simp only
      rw [mapLookup_mapStore_ne _ _ _ _ hne]
      exact hprev
    | recv p addr =>
      simp only
      split
      · exact mapLookup_mapDelete_of_none _ _ _ hprev
      · exact hprev
    | retransmit => exact hprev
    | keepAlive => exact hprev

theorem retransmissionTick_no_write_of_absent (st : State) (s : Int)
    (hok : TableOK st.pendingACKs) (habs : mapLookup st.pendingACKs s = none) :
    ∀ eff ∈ (retransmissionTick st).2, Effect.isWriteOfSeq s eff = false := by
  intro eff heff
  unfold retransmissionTick at heff
  split at heff
  · cases heff
  · obtain ⟨e, he, rfl⟩ := List.mem_map.1 heff
    have hkey := (mapLookup_eq_none_iff _ _).1 habs e he
    have hseq := (hok.1 e he).1
    simp only [Effect.isWriteOfSeq, beq_eq_false_iff_ne, ne_eq]
    rw [hseq]
    exact hkey

/-! ### The counter after very many submissions -/

theorem chatSend_nextSeq_after (peer : Option UDPAddr) (pre : List Event) (input : String) :
    (chatSend (run (initState peer) pre).1 input).1.nextSeq
      = wrapInt (1 + ((numSubmits pre + 1 : Nat) : Int)) := by
  have h := assignedSeq_eq_wrap peer (pre ++ [Event.submit input])
  rw [numSubmits_append, numSubmits_cons_submit] at h
  rw [assignedSeq, run_snoc] at h
  exact h

theorem wrapInt_two_pow_63 : wrapInt (1 + ((2 ^ 63 - 2 + 1 : Nat) : Int)) = -2 ^ 63 := by
  unfold wrapInt
  norm_num

theorem wrapInt_two_pow_64 : wrapInt (1 + ((2 ^ 64 - 1 + 1 : Nat) : Int)) = 1 := by
  unfold wrapInt
  norm_num

theorem submit_stores_under_assignedSeq (peer : Option UDPAddr) (tr : List Event)
    (input : String) (s : Int) (h : assignedSeq peer tr = s) :
    mapLookup (run (initState peer) (tr ++ [Event.submit input])).1.pendingACKs s
      = some ⟨TypeMSG, s, input⟩ := by
  subst h
  rw [run_snoc_pendingACKs, step_pendingACKs]
  exact mapLookup_mapStore_self _ _ _


/-! ### Retransmission -/

theorem retransmissionTick_of_peer (st : State) (a : UDPAddr) (h : st.peerAddr = some a) :
    retransmissionTick st = (st, st.pendingACKs.map (fun e => Effect.write e.2 a)) := by
  unfold retransmissionTick
  rw [h]

theorem countP_writes_of_table (m : List (Int × Packet)) (a : UDPAddr) (s : Int)
    (hok : TableOK m) :
    (m.map (fun e => Effect.write e.2 a)).countP (Effect.isWriteOfSeq s)
      = if (mapLookup m s).isSome then 1 else 0 := by
  induction m with
  | nil => rfl
  | cons e m ih =>
    obtain ⟨k, v⟩ := e
    have hnd : k ∉ m.map Prod.fst ∧ (m.map Prod.fst).Nodup := by
      simpa [List.nodup_cons] using hok.2
    have hm : TableOK m := ⟨fun x hx => hok.1 x (List.mem_cons_of_mem _ hx), hnd.2⟩
    have hv : v.Seq = k := (hok.1 (k, v) (List.mem_cons_self _ _)).1
    rw [List.map_cons, List.countP_cons, ih hm, mapLookup_cons]
    by_cases hk : s = k
    · subst hk
      have hnone : mapLookup m s = none := by
        rw [mapLookup_eq_none_iff]
        intro x hx hxs
        exact hnd.1 (hxs ▸ List.mem_map_of_mem Prod.fst hx)
      simp [hnone, Effect.isWriteOfSeq, hv]
    · have hne : ¬ v.Seq = s := by rw [hv]; exact fun h => hk h.symm
      simp [hk, Effect.isWriteOfSeq, hne]

theorem run_retransmit_replicate (st : State) (n : Nat) (q : Effect → Bool) :
    (run st (List.replicate n Event.retransmit)).1 = st ∧
    (run st (List.replicate n Event.retransmit)).2.countP q
      = n * (retransmissionTick st).2.countP q := by
  have hst : (retransmissionTick st).1 = st := by
    unfold retransmissionTick
    split <;> rfl
  induction n with
  | zero => simp [run]
  | succ n ih =>
    rw [List.replicate_succ]
    simp only [run, step, hst, List.countP_append]
    refine ⟨ih.1, ?_⟩
    rw [ih.2, Nat.succ_mul, Nat.add_comm]

theorem pending_originally_sent (a : UDPAddr) (tr : List Event) :
    ∀ e ∈ (run (initState (some a)) tr).1.pendingACKs,
      ∃ pre input post, tr = pre ++ Event.submit input :: post ∧
        (chatSend (run (initState (some a)) pre).1 input).2 = [Effect.write e.2 a] := by
  induction tr using List.reverseRecOn with
  | nil => intro e he; cases he
  | append_singleton tr ev ih =>
    intro e he
    rw [run_snoc_pendingACKs] at he
    rcases step_pending_mem _ ev e he with hmem | ⟨input, hev, heq⟩
    · obtain ⟨pre, input, post, htr, hout⟩ := ih e hmem
      refine ⟨pre, input, post ++ [ev], ?_, hout⟩
      rw [htr, List.append_assoc, List.cons_append]
    · refine ⟨tr, input, [], by rw [hev], ?_⟩
      have hpeer : (run (initState (some a)) tr).1.peerAddr = some a := run_peerAddr _ _
      rw [heq]
      simp only [chatSend, hpeer, writeToUDP]

theorem wrapInt_max : wrapInt (1 + ((2 ^ 63 - 2 : Nat) : Int)) = 2 ^ 63 - 1 := by
  unfold wrapInt
  norm_num

theorem run_snoc_submit_nextSeq (peer : Option UDPAddr) (tr : List Event) (input : String) :
    (run (initState peer) (tr ++ [Event.submit input])).1.nextSeq
      = wrapInt (1 + ((numSubmits tr + 1 : Nat) : Int)) := by
  rw [run_snoc]
  exact chatSend_nextSeq_after peer tr input

/-! ## The claims on STUN discovery -/

/-- C1 (as amended): a discovery response of at most 1024 bytes that contains an
XOR-MAPPED-ADDRESS attribute encoding port `p` and IPv4 address `a`, and in which no byte
pair `00 20` occurs before the attribute's own type field, is parsed to exactly the
address `a` and the port `p`, whatever its other bytes are. -/
theorem discovery_decode_when_attr_is_first_marker (pre post : List Byte)
    (len0 len1 reserved family : Byte) (port : Fin 65536) (a0 a1 a2 a3 : Byte)
    (hlen : (pre ++ xorMappedAddressAttr len0 len1 reserved family port a0 a1 a2 a3
      ++ post).length ≤ 1024)
    (hfirst : ∀ j, j < pre.length →
      ¬ MarkerAt (pre ++ xorMappedAddressAttr len0 len1 reserved family port a0 a1 a2 a3
        ++ post) j) :
    getSTUNMapping
        (.ok (pre ++ xorMappedAddressAttr len0 len1 reserved family port a0 a1 a2 a3 ++ post))
      = some ⟨ipString [a0.val, a1.val, a2.val, a3.val], port.val, none⟩ := by
  have hfit : pre.length + 12 ≤ 1024 := by
    simp only [List.length_append, xorMappedAddressAttr, List.length_cons,
      List.length_nil] at hlen
    omega
  have hidx := (indexOfSub_eq_some_iff _ pre.length).2
    ⟨markerAt_attr pre post len0 len1 reserved family port a0 a1 a2 a3, hfirst⟩
  rw [← List.take_of_length_le hlen] at hidx
  rw [getSTUNMapping_found _ _ hidx hfit, decodeAt_attr]

/-- Witness for C1: the canned response for `192.0.2.1:62486` (header, transaction
identifier without `00 20`, then the attribute) is parsed to `192.0.2.1` and `62486`. -/
theorem discovery_decode_witness :
    getSTUNMapping (.ok cannedResponse) = some ⟨"192.0.2.1", 62486, none⟩ :=
  discovery_decode_when_attr_is_first_marker
    [0x01, 0x01, 0x00, 0x0C, 0x21, 0x12, 0xA4, 0x42,
     0x01, 0x02, 0x03, 0x04, 0x05, 0x06, 0x07, 0x08, 0x09, 0x0A, 0x0B, 0x0C]
    [] 0x00 0x08 0x00 0x01 62486 192 0 2 1 (by decide) (by decide)

/-- Counterexample to C1 as stated: a 32-byte response that contains the attribute for
`192.0.2.1:62486` but whose transaction identifier starts with `00 20` is parsed, without
error, to `40.24.175.78:9754`. -/
theorem discovery_decode_marker_in_tid :
    (∃ pre post, cannedResponseMarkerInTid
        = pre ++ xorMappedAddressAttr 0x00 0x08 0x00 0x01 62486 192 0 2 1 ++ post) ∧
      cannedResponseMarkerInTid.length ≤ 1024 ∧
      getSTUNMapping (.ok cannedResponseMarkerInTid) = some ⟨"40.24.175.78", 9754, none⟩ ∧
      getSTUNMapping (.ok cannedResponseMarkerInTid) ≠ some ⟨"192.0.2.1", 62486, none⟩ := by
  have hval : getSTUNMapping (.ok cannedResponseMarkerInTid)
      = some ⟨"40.24.175.78", 9754, none⟩ := by
    rw [getSTUNMapping_found cannedResponseMarkerInTid 8 (by decide) (by decide)]
    decide
  refine ⟨⟨[0x01, 0x01, 0x00, 0x0C, 0x21, 0x12, 0xA4, 0x42,
     0x00, 0x20, 0x03, 0x04, 0x05, 0x06, 0x07, 0x08, 0x09, 0x0A, 0x0B, 0x0C], [], by decide⟩,
    by decide, hval, ?_⟩
  rw [hval]
  decide

/-- C8 (the code at a failing input): in a 1024-byte datagram whose only marker `00 20` is
its last two bytes, the marker does occur in the first `n = 1024` bytes, yet
`getSTUNMapping` neither returns the "could not find XOR-MAPPED-ADDRESS" error nor decodes
and returns without error: slicing `resp[1028:1030]` is out of range and the function
panics. -/
theorem marker_present_but_no_result :
    readCount (markerAfterFiller 1022 []) = 1024 ∧
    MarkerAt ((markerAfterFiller 1022 []).take (readCount (markerAfterFiller 1022 []))) 1022 ∧
    getSTUNMapping (.ok (markerAfterFiller 1022 [])) = none := by
  have hidx := indexOfSub_markerAfterFiller 1022 [] (by decide)
  refine ⟨by rw [readCount, markerAfterFiller_length]; rfl, ?_,
    getSTUNMapping_panic _ 1022 hidx (by decide)⟩
  rw [take_readCount]
  exact ((indexOfSub_eq_some_iff _ 1022).1 hidx).1

/-- C10 (the code at two failing inputs): for the 2-byte datagram `00 20` the marker is
found at offset 0 and the parser returns, without error, `33.18.164.66:8466`, decoded from
buffer bytes 6..11 that lie outside the 2 received bytes; for a 1015-byte datagram ending
in the marker the parser slices `resp[1021:1025]` beyond the 1024-byte buffer and panics. -/
theorem parser_reads_past_received_bytes :
    readCount [0x00, 0x20] = 2 ∧
    bytesIndex ((respBuffer [0x00, 0x20]).take (readCount [0x00, 0x20])) xorMappedMarker = 0 ∧
    getSTUNMapping (.ok [0x00, 0x20]) = some ⟨"33.18.164.66", 8466, none⟩ ∧
    readCount (markerAfterFiller 1013 []) = 1015 ∧
    bytesIndex ((respBuffer (markerAfterFiller 1013 [])).take
      (readCount (markerAfterFiller 1013 []))) xorMappedMarker = 1013 ∧
    getSTUNMapping (.ok (markerAfterFiller 1013 [])) = none := by
  have hidx := indexOfSub_markerAfterFiller 1013 [] (by decide)
  refine ⟨by decide, ?_, ?_, by rw [readCount, markerAfterFiller_length]; rfl, ?_,
    getSTUNMapping_panic _ 1013 hidx (by decide)⟩
  · rw [respBuffer_take]
    exact (bytesIndex_eq_natCast_iff _ 0).2 (by decide)
  · rw [getSTUNMapping_found [0x00, 0x20] 0 (by decide) (by decide)]
    decide
  · rw [respBuffer_take]
    exact (bytesIndex_eq_natCast_iff _ 1013).2 hidx

/-! ## The claims on the receive handler -/

/-- C3: in every session state, processing a received Acknowledgment with sequence `s`
leaves `s` absent from the pending table, leaves the entry of every other sequence `s'`
exactly as it was, leaves the counter (and the peer endpoint) unchanged and emits
nothing. -/
theorem ack_removes_only_matching_sequence (st : State) (s s' : Int) (d : String)
    (addr : UDPAddr) (hne : s ≠ s') :
    mapLookup (listenStep st ⟨TypeACK, s, d⟩ addr).1.pendingACKs s = none ∧
    mapLookup (listenStep st ⟨TypeACK, s, d⟩ addr).1.pendingACKs s'
      = mapLookup st.pendingACKs s' ∧
    (listenStep st ⟨TypeACK, s, d⟩ addr).1.nextSeq = st.nextSeq ∧
    (listenStep st ⟨TypeACK, s, d⟩ addr).1.peerAddr = st.peerAddr ∧
    (listenStep st ⟨TypeACK, s, d⟩ addr).2 = [] := by
  rw [listenStep_ack]
  exact ⟨mapLookup_mapDelete_self _ s, mapLookup_mapDelete_ne _ s s' hne, rfl, rfl, rfl⟩

/-- Witness for C3: with messages 1 and 2 pending, an Acknowledgment for 1 removes entry 1
and keeps entry 2 with its packet. -/
theorem ack_removes_only_matching_sequence_witness :
    mapLookup (listenStep ⟨[(2, ⟨TypeMSG, 2, "b"⟩), (1, ⟨TypeMSG, 1, "a"⟩)], 3, none⟩
        ⟨TypeACK, 1, ""⟩ ⟨"198.51.100.7", 4000⟩).1.pendingACKs 1 = none ∧
    mapLookup (listenStep ⟨[(2, ⟨TypeMSG, 2, "b"⟩), (1, ⟨TypeMSG, 1, "a"⟩)], 3, none⟩
        ⟨TypeACK, 1, ""⟩ ⟨"198.51.100.7", 4000⟩).1.pendingACKs 2
      = some ⟨TypeMSG, 2, "b"⟩ :=
  have h := ack_removes_only_matching_sequence
    ⟨[(2, ⟨TypeMSG, 2, "b"⟩), (1, ⟨TypeMSG, 1, "a"⟩)], 3, none⟩ 1 2 ""
    ⟨"198.51.100.7", 4000⟩ (by decide)
  ⟨h.1, h.2.1.trans (by decide)⟩

/-- C4: in every session state, processing an Acknowledgment for `s` twice in a row gives
the same state as processing it once, neither emits anything, and an Acknowledgment for
a sequence that is not in the pending table leaves the whole state unchanged. -/
theorem ack_idempotent (st : State) (s : Int) (d d' : String) (addr addr' : UDPAddr) :
    (listenStep (listenStep st ⟨TypeACK, s, d⟩ addr).1 ⟨TypeACK, s, d'⟩ addr').1
      = (listenStep st ⟨TypeACK, s, d⟩ addr).1 ∧
    (listenStep st ⟨TypeACK, s, d⟩ addr).2 = [] ∧
    (listenStep (listenStep st ⟨TypeACK, s, d⟩ addr).1 ⟨TypeACK, s, d'⟩ addr').2 = [] ∧
    (mapLookup st.pendingACKs s = none → listenStep st ⟨TypeACK, s, d⟩ addr = (st, [])) := by
  simp only [listenStep_ack, mapDelete_idem, true_and]
  intro h
  rw [mapDelete_of_absent _ _ h]

/-- Witness for C4: with only message 2 pending, an Acknowledgment for the absent
sequence 1 changes nothing. -/
theorem ack_idempotent_witness :
    listenStep ⟨[(2, ⟨TypeMSG, 2, "b"⟩)], 3, none⟩ ⟨TypeACK, 1, ""⟩ ⟨"198.51.100.7", 4000⟩
      = (⟨[(2, ⟨TypeMSG, 2, "b"⟩)], 3, none⟩, []) :=
  (ack_idempotent ⟨[(2, ⟨TypeMSG, 2, "b"⟩)], 3, none⟩ 1 "" ""
    ⟨"198.51.100.7", 4000⟩ ⟨"198.51.100.7", 4000⟩).2.2.2 (by decide)

/-- C5: in every session state, a received Message with sequence `s` and payload `d` from
address `a` makes the handler send exactly one Acknowledgment with sequence `s` and empty
payload to `a`, print `d` to the console, and leave the state unchanged; receiving it a
second time does the same again, so `("hi", 1)` received twice is acknowledged twice and
printed twice. -/
theorem message_receipt_no_duplicate_suppression (st : State) (s : Int) (d : String)
    (a : UDPAddr) :
    listenStep st ⟨TypeMSG, s, d⟩ a
      = (st, [Effect.write ⟨TypeACK, s, ""⟩ a,
              Effect.print ("\r\x1b[K[Peer]: " ++ d ++ "\n> ")]) ∧
    run st [Event.recv ⟨TypeMSG, s, d⟩ a, Event.recv ⟨TypeMSG, s, d⟩ a]
      = (st, [Effect.write ⟨TypeACK, s, ""⟩ a,
              Effect.print ("\r\x1b[K[Peer]: " ++ d ++ "\n> "),
              Effect.write ⟨TypeACK, s, ""⟩ a,
              Effect.print ("\r\x1b[K[Peer]: " ++ d ++ "\n> ")]) ∧
    (run st [Event.recv ⟨TypeMSG, 1, "hi"⟩ a, Event.recv ⟨TypeMSG, 1, "hi"⟩ a]).2
      = [Effect.write ⟨TypeACK, 1, ""⟩ a, Effect.print "\r\x1b[K[Peer]: hi\n> ",
         Effect.write ⟨TypeACK, 1, ""⟩ a, Effect.print "\r\x1b[K[Peer]: hi\n> "] := by
  refine ⟨listenStep_msg st s d a, ?_, ?_⟩
  · simp [run, step, listenStep_msg]
  · have hs : "\r\x1b[K[Peer]: " ++ "hi" ++ "\n> " = "\r\x1b[K[Peer]: hi\n> " := by decide
    simp only [run, step, listenStep_msg, List.append_nil, hs, List.cons_append,
      List.nil_append]

/-! ## The claims on sending -/

/-- C2 (as amended): from the initial session state, for every interleaving of
submissions with received packets and timer ticks, the `k`-th submitted message with
`k < 2^63 - 1` (Go's `int` being 64 bits wide) is assigned sequence number `k`, is stored in the pending table under key
`k` as a Message packet with exactly the submitted payload, is the one packet handed to
the socket for the peer endpoint (nothing is transmitted when no endpoint is set), and
leaves the counter at `k + 1`; so below that bound no two messages of a session get the
same sequence number. -/
theorem send_sequence_assignment_below_wrap (peer : Option UDPAddr) (pre : List Event)
    (input : String) (k : Nat) (hk : numSubmits pre + 1 = k) (hbound : k < 2 ^ 63 - 1) :
    assignedSeq peer pre = (k : Int) ∧
    mapLookup (chatSend (run (initState peer) pre).1 input).1.pendingACKs (k : Int)
      = some ⟨TypeMSG, (k : Int), input⟩ ∧
    (chatSend (run (initState peer) pre).1 input).2
      = (match peer with
         | some a => [Effect.write ⟨TypeMSG, (k : Int), input⟩ a]
         | none => []) ∧
    (chatSend (run (initState peer) pre).1 input).1.nextSeq = (k : Int) + 1 ∧
    (∀ pre' k', numSubmits pre' + 1 = k' → k' < 2 ^ 63 - 1 → k' ≠ k →
      assignedSeq peer pre' ≠ assignedSeq peer pre) := by
  have hseq : assignedSeq peer pre = (k : Int) := by
    rw [assignedSeq_eq peer pre (by omega), ← hk]
    push_cast
    omega
  have hst : (run (initState peer) pre).1.nextSeq = (k : Int) := hseq
  have hpeer : (run (initState peer) pre).1.peerAddr = peer := run_peerAddr _ _
  refine ⟨hseq, ?_, ?_, ?_, ?_⟩
  · simp only [chatSend, hst]
    exact mapLookup_mapStore_self _ _ _
  · simp only [chatSend, hst, hpeer, writeToUDP]
  · rw [chatSend_nextSeq_after, hk]
    apply (wrapInt_of_inRange _ _ _).trans
    · omega
    · have : (0 : Int) ≤ (k : Int) := Int.ofNat_nonneg _
      norm_num
      omega
    · have h' : (k : Int) < 2 ^ 63 - 1 := by
        have := Int.ofNat_lt.2 hbound
        push_cast at this
        simpa using this
      omega
  · intro pre' k' hk' hb' hne
    rw [hseq, assignedSeq_eq peer pre' (by omega)]
    intro h
    apply hne
    omega

/-- Witness for C2: after a submission, a retransmission tick and a received Message, the
next submitted line is the 2nd message; it gets sequence 2 and leaves the counter at 3. -/
theorem send_sequence_assignment_witness :
    assignedSeq (some ⟨"198.51.100.7", 4000⟩)
        [Event.submit "a", Event.retransmit, Event.recv ⟨TypeMSG, 7, "x"⟩ ⟨"198.51.100.7", 4000⟩]
      = 2 ∧
    (chatSend (run (initState (some ⟨"198.51.100.7", 4000⟩))
        [Event.submit "a", Event.retransmit,
         Event.recv ⟨TypeMSG, 7, "x"⟩ ⟨"198.51.100.7", 4000⟩]).1 "b").1.nextSeq = 3 :=
  have h := send_sequence_assignment_below_wrap (some ⟨"198.51.100.7", 4000⟩)
    [Event.submit "a", Event.retransmit, Event.recv ⟨TypeMSG, 7, "x"⟩ ⟨"198.51.100.7", 4000⟩]
    "b" 2 (by decide) (by decide)
  ⟨h.1, h.2.2.2.1⟩

/-- Counterexample to C2 as stated: after `2^63 - 2` submissions the next message is the
`(2^63 - 1)`-th; submitting it leaves the counter at `-2^63`, not at `2^63`.  And in a
session whose peer endpoint is `nil` the first message is transmitted to nobody. -/
theorem send_counter_wraps :
    numSubmits (List.replicate (2 ^ 63 - 2) (Event.submit "x")) + 1 = 2 ^ 63 - 1 ∧
    (chatSend (run (initState none) (List.replicate (2 ^ 63 - 2) (Event.submit "x"))).1
      "x").1.nextSeq = -2 ^ 63 ∧
    (chatSend (initState none) "x").2 = [] := by
  refine ⟨?_, ?_, rfl⟩
  · rw [numSubmits_replicate_submit]
    norm_num
  · rw [chatSend_nextSeq_after, numSubmits_replicate_submit]
    exact wrapInt_two_pow_63

/-! ## The claims on acknowledged messages -/

/-- C9 (as amended): in every session history from the initial state with fewer than
`2^63 - 1` submissions (Go's `int` being 64 bits wide), once an Acknowledgment for the sequence `s` of a submitted message
has been processed, `s` is not in the pending table after any later operations and a
retransmission tick then emits no packet with sequence `s`; and in every such history
every key of the pending table is at least 1 and smaller than the counter. -/
theorem acknowledged_is_terminal_below_wrap (peer : Option UDPAddr)
    (pre1 pre2 post : List Event) (input d : String) (addr : UDPAddr)
    (hbound : numSubmits (ackedHistory peer pre1 input pre2 d addr post) < 2 ^ 63 - 1) :
    mapLookup (run (initState peer) (ackedHistory peer pre1 input pre2 d addr post)).1.pendingACKs
      (assignedSeq peer pre1) = none ∧
    (∀ eff ∈ (retransmissionTick
        (run (initState peer) (ackedHistory peer pre1 input pre2 d addr post)).1).2,
      Effect.isWriteOfSeq (assignedSeq peer pre1) eff = false) ∧
    (∀ tr, numSubmits tr < 2 ^ 63 - 1 →
      ∀ e ∈ (run (initState peer) tr).1.pendingACKs,
        1 ≤ e.1 ∧ e.1 < (run (initState peer) tr).1.nextSeq) := by
  have hsplit : ackedHistory peer pre1 input pre2 d addr post
      = (pre1 ++ Event.submit input :: pre2
          ++ [Event.recv ⟨TypeACK, assignedSeq peer pre1, d⟩ addr]) ++ post := by
    simp [ackedHistory, List.append_assoc]
  have hcount : numSubmits (pre1 ++ Event.submit input :: pre2
      ++ [Event.recv ⟨TypeACK, assignedSeq peer pre1, d⟩ addr])
      = numSubmits pre1 + (numSubmits pre2 + 1) := by
    rw [numSubmits_append, numSubmits_append, numSubmits_cons_submit, numSubmits_cons_recv]
    rfl
  have hb2 := hbound
  rw [hsplit, numSubmits_append, hcount] at hb2
  have habs : mapLookup (run (initState peer) (pre1 ++ Event.submit input :: pre2
      ++ [Event.recv ⟨TypeACK, assignedSeq peer pre1, d⟩ addr])).1.pendingACKs
      (assignedSeq peer pre1) = none := by
    rw [run_snoc_pendingACKs]
    show mapLookup (listenStep _ _ _).1.pendingACKs _ = none
    rw [listenStep_ack]
    exact mapLookup_mapDelete_self _ _
  have hlt : assignedSeq peer pre1 < assignedSeq peer (pre1 ++ Event.submit input :: pre2
      ++ [Event.recv ⟨TypeACK, assignedSeq peer pre1, d⟩ addr]) := by
    have hA := assignedSeq_eq peer pre1 (by omega)
    have hB := assignedSeq_eq peer _ (Nat.lt_of_le_of_lt (Nat.le_of_eq hcount)
      (show numSubmits pre1 + (numSubmits pre2 + 1) < 2 ^ 63 - 1 by omega))
    rw [hcount] at hB
    rw [hB, hA]
    push_cast
    have : (0 : Int) ≤ (numSubmits pre2 : Int) := Int.ofNat_nonneg _
    omega
  have hfinal : mapLookup
      (run (initState peer) (ackedHistory peer pre1 input pre2 d addr post)).1.pendingACKs
      (assignedSeq peer pre1) = none := by
    rw [hsplit]
    exact absent_stays_absent peer _ post _ (by rw [← hsplit]; exact hbound) hlt habs
  refine ⟨hfinal, ?_, ?_⟩
  · exact retransmissionTick_no_write_of_absent _ _ (run_tableOK _ _ tableOK_nil) hfinal
  · intro tr htr e he
    exact keys_lt_assignedSeq peer tr htr e he

/-- Witness for C9: message 1 is submitted, retransmitted, acknowledged; after a further
submission and a tick, sequence 1 is not pending. -/
theorem acknowledged_is_terminal_witness :
    mapLookup (run (initState (some ⟨"198.51.100.7", 4000⟩))
      (ackedHistory (some ⟨"198.51.100.7", 4000⟩) [] "a" [Event.retransmit] ""
        ⟨"198.51.100.7", 4000⟩ [Event.submit "b", Event.retransmit])).1.pendingACKs 1
      = none :=
  (acknowledged_is_terminal_below_wrap (some ⟨"198.51.100.7", 4000⟩) [] [Event.retransmit]
    [Event.submit "b", Event.retransmit] "a" "" ⟨"198.51.100.7", 4000⟩ (by decide)).1

/-- Counterexample to C9 as stated: message 1 is submitted and acknowledged; after `2^64`
further submissions the counter has wrapped round to 1 again and the last of them is
stored under key 1, so sequence 1 is back in the pending table.  And already after
`2^63 - 1` submissions the key `2^63 - 1` is pending while the counter is `-2^63`. -/
theorem acknowledged_sequence_reused_after_wrap :
    assignedSeq none [] = 1 ∧
    mapLookup (run (initState none)
      (ackedHistory none [] "x" [] "" ⟨"198.51.100.7", 4000⟩
        (List.replicate (2 ^ 64 - 1) (Event.submit "y") ++ [Event.submit "z"]))).1.pendingACKs
      1 = some ⟨TypeMSG, 1, "z"⟩ ∧
    mapLookup (run (initState none)
      (List.replicate (2 ^ 63 - 2) (Event.submit "y") ++ [Event.submit "z"])).1.pendingACKs
      (2 ^ 63 - 1) = some ⟨TypeMSG, 2 ^ 63 - 1, "z"⟩ ∧
    (run (initState none)
      (List.replicate (2 ^ 63 - 2) (Event.submit "y") ++ [Event.submit "z"])).1.nextSeq
      = -2 ^ 63 := by
  refine ⟨rfl, ?_, ?_, ?_⟩
  rotate_left
  · apply submit_stores_under_assignedSeq
    rw [assignedSeq_eq_wrap, numSubmits_replicate_submit]
    exact wrapInt_max
  · rw [run_snoc_submit_nextSeq, numSubmits_replicate_submit]
    exact wrapInt_two_pow_63
  have hsplit : ackedHistory none [] "x" [] "" ⟨"198.51.100.7", 4000⟩
      (List.replicate (2 ^ 64 - 1) (Event.submit "y") ++ [Event.submit "z"])
      = (Event.submit "x" :: Event.recv ⟨TypeACK, assignedSeq none [], ""⟩ ⟨"198.51.100.7", 4000⟩
          :: List.replicate (2 ^ 64 - 1) (Event.submit "y")) ++ [Event.submit "z"] := by
    simp only [ackedHistory, List.nil_append, List.cons_append]
  have hnext : assignedSeq none (Event.submit "x"
      :: Event.recv ⟨TypeACK, assignedSeq none [], ""⟩ ⟨"198.51.100.7", 4000⟩
      :: List.replicate (2 ^ 64 - 1) (Event.submit "y")) = 1 := by
    rw [assignedSeq_eq_wrap, numSubmits_cons_submit, numSubmits_cons_recv,
      numSubmits_replicate_submit]
    exact wrapInt_two_pow_64
  rw [hsplit]
  exact submit_stores_under_assignedSeq none _ "z" 1 hnext

/-! ## The claim on retransmission -/

/-- C6: in every state a session with peer endpoint `a` can reach, a retransmission tick
leaves the state unchanged and emits, up to order, exactly one transmission to `a` per
entry of the pending table; the packet of the entry for sequence `s` carries sequence `s`
and is the very packet that the submission of that message handed to the socket; and `n`
consecutive ticks leave the state unchanged and emit exactly `n` packets with
sequence `s`. -/
theorem retransmission_persistence (a : UDPAddr) (tr : List Event) :
    (retransmissionTick (run (initState (some a)) tr).1).1 = (run (initState (some a)) tr).1 ∧
    List.Perm (retransmissionTick (run (initState (some a)) tr).1).2
      ((run (initState (some a)) tr).1.pendingACKs.map (fun e => Effect.write e.2 a)) ∧
    ((run (initState (some a)) tr).1.pendingACKs.map Prod.fst).Nodup ∧
    (∀ s p, mapLookup (run (initState (some a)) tr).1.pendingACKs s = some p →
      p.Typ = TypeMSG ∧ p.Seq = s ∧
      (∃ pre input post, tr = pre ++ Event.submit input :: post ∧
        (chatSend (run (initState (some a)) pre).1 input).2 = [Effect.write p a]) ∧
      ∀ n,
        (run (run (initState (some a)) tr).1 (List.replicate n Event.retransmit)).1
          = (run (initState (some a)) tr).1 ∧
        (run (run (initState (some a)) tr).1 (List.replicate n Event.retransmit)).2.countP
          (Effect.isWriteOfSeq s) = n) := by
  have hpeer : (run (initState (some a)) tr).1.peerAddr = some a := run_peerAddr _ _
  have hok : TableOK (run (initState (some a)) tr).1.pendingACKs :=
    run_tableOK _ _ tableOK_nil
  have htick := retransmissionTick_of_peer _ a hpeer
  refine ⟨by rw [htick], by rw [htick], hok.2, ?_⟩
  intro s p hlook
  have hmem := mem_of_mapLookup _ _ _ hlook
  refine ⟨(hok.1 _ hmem).2, (hok.1 _ hmem).1, pending_originally_sent a tr _ hmem, ?_⟩
  intro n
  have hrun := run_retransmit_replicate (run (initState (some a)) tr).1 n
    (Effect.isWriteOfSeq s)
  refine ⟨hrun.1, ?_⟩
  rw [hrun.2, htick, countP_writes_of_table _ a s hok, hlook]
  simp

/-- Witness for C6: with messages 1 and 2 submitted and 2 acknowledged, three consecutive
ticks emit exactly three packets with sequence 1. -/
theorem retransmission_persistence_witness :
    (run (run (initState (some ⟨"198.51.100.7", 4000⟩))
        [Event.submit "a", Event.submit "b",
         Event.recv ⟨TypeACK, 2, ""⟩ ⟨"198.51.100.7", 4000⟩]).1
      (List.replicate 3 Event.retransmit)).2.countP (Effect.isWriteOfSeq 1) = 3 :=
  (((retransmission_persistence ⟨"198.51.100.7", 4000⟩
    [Event.submit "a", Event.submit "b",
     Event.recv ⟨TypeACK, 2, ""⟩ ⟨"198.51.100.7", 4000⟩]).2.2.2 1 ⟨TypeMSG, 1, "a"⟩
    (by decide)).2.2.2 3).2

end HolePuncher
